import Mathlib

/-!
Shallow embedding of the event-sourced reconstruction engine of
chronos-timeledger (src/domain.rs, src/main.rs, src/ui.rs).

Timestamps (chrono `DateTime<Utc>`) are modelled as `Int` nanoseconds since
the epoch; `chrono::Duration` likewise as `Int` nanoseconds; `NaiveDate` as
the `Int` day number (days since the epoch); `NaiveDateTime` (a timezone-free
local wall-clock datetime) as `Int` nanoseconds on the local wall clock.

The host's local timezone (chrono `Local`) is modelled abstractly by a `Tz`
value: `toLocal` maps a UTC instant to its local naive datetime, and
`fromLocal` maps a local naive datetime to the chrono `LocalResult`
(single / ambiguous / nonexistent).  A `panic!` in the Rust code is modelled
by returning `none`, which is threaded through every computation that can
reach the panicking conversion.
-/

namespace Chronos

/-- Nanoseconds in one second (`chrono::Duration::seconds(1)`). -/
def nsPerSec : Int := 1000000000

/-- Nanoseconds in one minute (`chrono::Duration::minutes(1)`). -/
def nsPerMin : Int := 60 * nsPerSec

/-- Nanoseconds in one hour (`chrono::Duration::hours(1)`). -/
def nsPerHour : Int := 3600 * nsPerSec

/-- Nanoseconds in one day (`chrono::Duration::days(1)`). -/
def nsPerDay : Int := 86400 * nsPerSec

/-- Result of mapping a local naive datetime to UTC (chrono `LocalResult`). -/
inductive LocalResult where
  | single (utc : Int)
  | ambiguous (first second : Int)
  | nonexistent
deriving DecidableEq, Repr

/-- Abstract model of the host local timezone (chrono `Local`). -/
structure Tz where
  fromLocal : Int → LocalResult
  toLocal : Int → Int

/-- A timezone with no offset and no transitions (UTC-like), used to
instantiate theorems at concrete inputs. -/
def utcTz : Tz :=
  { fromLocal := fun n => LocalResult.single n, toLocal := fun n => n }

/-- Embeds `local_naive_to_utc` (domain.rs): `Single` maps through,
`Ambiguous(first, second)` resolves to the earlier (`first.min(second)`),
`None` yields no instant. -/
def localNaiveToUtc (tz : Tz) (naive : Int) : Option Int :=
  match tz.fromLocal naive with
  | LocalResult.single u => some u
  | LocalResult.ambiguous a b => some (min a b)
  | LocalResult.nonexistent => none

/-- Embeds the probing loop of `local_naive_to_utc_resolved` (domain.rs):
`for _ in 0..120 { if let Some(t) = local_naive_to_utc(cursor) { return t };
cursor += 1 minute }`. -/
def probeForward (tz : Tz) : Nat → Int → Option Int
  | 0, _ => none
  | n + 1, cursor =>
    match localNaiveToUtc tz cursor with
    | some u => some u
    | none => probeForward tz n (cursor + nsPerMin)

/-- Embeds `local_naive_to_utc_resolved` (domain.rs).  The final
`panic!("local day boundary does not exist")` is modelled as `none`. -/
def localNaiveToUtcResolved (tz : Tz) (naive : Int) : Option Int :=
  match localNaiveToUtc tz naive with
  | some u => some u
  | none => probeForward tz 120 (naive + nsPerMin)

/-- Embeds `ledger_day_for_timestamp` (domain.rs): convert the instant
`timestamp - day_start_offset` to local time and take its calendar date
(floor division of the local naive datetime by the length of a day). -/
def ledgerDayForTimestamp (tz : Tz) (timestamp offset : Int) : Int :=
  Int.fdiv (tz.toLocal (timestamp - offset)) nsPerDay

/-- Embeds `ledger_day_bounds_utc` (domain.rs): local midnight of `day` plus
the offset is the start; start plus 24 h is the end; both resolved to UTC.
`none` models the panic inside `local_naive_to_utc_resolved`. -/
def ledgerDayBoundsUtc (tz : Tz) (day offset : Int) : Option (Int × Int) :=
  let startNaive := day * nsPerDay + offset
  let endNaive := startNaive + nsPerDay
  match localNaiveToUtcResolved tz startNaive, localNaiveToUtcResolved tz endNaive with
  | some s, some e => some (s, e)
  | _, _ => none

/-- Per-day per-task duration totals
(`BTreeMap<NaiveDate, HashMap<String, Duration>>` in domain.rs), modelled as
a total function with default value zero (a map entry that is absent holds
duration zero). -/
def Totals : Type := Int → String → Int

/-- The empty totals map. -/
def emptyTotals : Totals := fun _ _ => 0

/-- Embeds `add_daily_total` (domain.rs): add `duration` to the entry of
`(date, task_id)`, treating a missing entry as zero. -/
def addDailyTotal (totals : Totals) (date : Int) (taskId : String) (duration : Int) : Totals :=
  fun date' taskId' =>
    if date' = date ∧ taskId' = taskId then totals date' taskId' + duration
    else totals date' taskId'

/-- Embeds the `while day <= last_day` loop of `accumulate_session`
(domain.rs).  The fuel argument equals the exact number of remaining loop
iterations, so the recursion performs the same steps as the Rust loop. -/
def accumulateDays (tz : Tz) (taskId : String) (start stop offset lastDay : Int) :
    Nat → Int → Totals → Option Totals
  | 0, _, totals => some totals
  | fuel + 1, day, totals =>
    if day ≤ lastDay then
      match ledgerDayBoundsUtc tz day offset with
      | none => none
      | some (dayStart, dayEnd) =>
        let sliceStart := if dayStart < start then start else dayStart
        let sliceEnd := if stop < dayEnd then stop else dayEnd
        let totals' :=
          if sliceStart < sliceEnd then addDailyTotal totals day taskId (sliceEnd - sliceStart)
          else totals
        accumulateDays tz taskId start stop offset lastDay fuel (day + 1) totals'
    else some totals

/-- Embeds `accumulate_session` (domain.rs): return unchanged when
`stop <= start`; otherwise slice `[start, stop)` over the ledger days from
`ledger_day_for_timestamp(start)` to
`ledger_day_for_timestamp(stop - Duration::seconds(1))` inclusive.  Note the
Rust code subtracts one second (`Duration::seconds(1)`), not one nanosecond,
to find the last day. -/
def accumulateSession (tz : Tz) (totals : Totals) (taskId : String)
    (start stop offset : Int) : Option Totals :=
  if stop ≤ start then some totals
  else
    let firstDay := ledgerDayForTimestamp tz start offset
    let lastDay := ledgerDayForTimestamp tz (stop - nsPerSec) offset
    accumulateDays tz taskId start stop offset lastDay (lastDay + 1 - firstDay).toNat
      firstDay totals

/-- Embeds `Project` (domain.rs). -/
structure Project where
  id : String
  name : String
  color : Option String
  archived : Bool
deriving DecidableEq, Repr

/-- Embeds `Category` (domain.rs). -/
structure Category where
  id : String
  name : String
  description : Option String
  archived : Bool
deriving DecidableEq, Repr

/-- Embeds `Task` (domain.rs). -/
structure Task where
  id : String
  projectId : String
  categoryId : Option String
  description : String
  archived : Bool
deriving DecidableEq, Repr

/-- Embeds `EventKind` (domain.rs). -/
inductive EventKind where
  | start (taskId : String) (note : Option String)
  | stop (taskId : String) (note : Option String)
deriving DecidableEq, Repr

/-- Embeds `TimeEvent` (domain.rs). -/
structure TimeEvent where
  timestamp : Int
  kind : EventKind
deriving DecidableEq, Repr

/-- Embeds `TimeEvent::start` (domain.rs). -/
def TimeEvent.startEvent (taskId : String) (timestamp : Int) (note : Option String) :
    TimeEvent :=
  { timestamp := timestamp, kind := EventKind.start taskId note }

/-- Embeds `TimeEvent::stop` (domain.rs). -/
def TimeEvent.stopEvent (taskId : String) (timestamp : Int) (note : Option String) :
    TimeEvent :=
  { timestamp := timestamp, kind := EventKind.stop taskId note }

/-- Embeds `LedgerHeader` (domain.rs); `schema_version` and `created_at` are
carried along unused by the operations modelled here. -/
structure LedgerHeader where
  schemaVersion : Nat
  createdAt : Int
  dayStartOffsetHours : Int
  projects : List Project
  tasks : List Task
  categories : List Category
deriving DecidableEq, Repr

/-- Embeds `Ledger` (domain.rs). -/
structure Ledger where
  header : LedgerHeader
  events : List TimeEvent
deriving DecidableEq, Repr

/-- Embeds `Ledger::day_start_offset` (domain.rs):
`Duration::hours(day_start_offset_hours)`. -/
def Ledger.dayStartOffset (l : Ledger) : Int :=
  l.header.dayStartOffsetHours * nsPerHour

/-- Embeds `Ledger::task` (domain.rs): linear scan by id equality. -/
def Ledger.task (l : Ledger) (id : String) : Option Task :=
  l.header.tasks.find? (fun t => t.id == id)

/-- Embeds `ActiveSession` (domain.rs).  Note: the struct holds only
`started_at`; it has no note field. -/
structure ActiveSession where
  startedAt : Int
deriving DecidableEq, Repr

/-- The `HashMap<String, ActiveSession>` of `Ledger::snapshot`, modelled as
an association list with unique keys (`insert` replaces in place). -/
abbrev ActiveMap : Type := List (String × ActiveSession)

/-- HashMap `insert`: overwrite the binding when the key is present,
otherwise add it. -/
def insertActive : ActiveMap → String → ActiveSession → ActiveMap
  | [], key, v => [(key, v)]
  | (key', v') :: rest, key, v =>
    if key' = key then (key, v) :: rest else (key', v') :: insertActive rest key v

/-- HashMap lookup by key. -/
def lookupActive (m : ActiveMap) (key : String) : Option ActiveSession :=
  (List.find? (fun p => p.1 == key) m).map (fun p => p.2)

/-- HashMap `remove`: drop the binding of `key`. -/
def removeActive (m : ActiveMap) (key : String) : ActiveMap :=
  List.filter (fun p => !(p.1 == key)) m

/-- HashMap `contains_key`. -/
def containsActive (m : ActiveMap) (key : String) : Bool :=
  (lookupActive m key).isSome

/-- Comparator of the event sort in `Ledger::snapshot` (domain.rs):
`events.sort_by_key(|event| event.timestamp)`. -/
def tsLE (a b : TimeEvent) : Bool :=
  decide (a.timestamp ≤ b.timestamp)

/-- Embeds the sort in `Ledger::snapshot` (domain.rs).  Rust's
`sort_by_key` is a stable sort; `List.mergeSort` is likewise stable. -/
def sortEvents (events : List TimeEvent) : List TimeEvent :=
  events.mergeSort tsLE

/-- Follows the spec's words (not the source): the replay order the spec
prescribes, namely ascending `(timestamp, original insertion index)` with
the insertion index breaking timestamp ties.  To be compared with the
stable timestamp sort the source performs. -/
def tsIdxLE (a b : Nat × TimeEvent) : Bool :=
  decide (a.2.timestamp < b.2.timestamp ∨
    (a.2.timestamp = b.2.timestamp ∧ a.1 ≤ b.1))

/-- Embeds the replay loop of `Ledger::snapshot` (domain.rs): a Start
inserts (insert-or-overwrite) the open interval for its task; a Stop that
finds an open interval removes it and accumulates the session.  `none`
models a panic inside `accumulate_session`. -/
def replayEvents (tz : Tz) (offset : Int) :
    List TimeEvent → ActiveMap → Totals → Option (ActiveMap × Totals)
  | [], active, totals => some (active, totals)
  | e :: rest, active, totals =>
    match e.kind with
    | EventKind.start taskId _ =>
      replayEvents tz offset rest
        (insertActive active taskId { startedAt := e.timestamp }) totals
    | EventKind.stop taskId _ =>
      match lookupActive active taskId with
      | some session =>
        match accumulateSession tz totals taskId session.startedAt e.timestamp offset with
        | some totals' => replayEvents tz offset rest (removeActive active taskId) totals'
        | none => none
      | none => replayEvents tz offset rest active totals

/-- Embeds the final loop of `Ledger::snapshot` (domain.rs): every task
still holding an open interval is accumulated through `now`.  The Rust code
iterates a `HashMap` in unspecified order; the model iterates the
association list (the resulting totals do not depend on the order, since
`add_daily_total` only adds). -/
def accumulateOpenSessions (tz : Tz) (offset now : Int) :
    List (String × ActiveSession) → Totals → Option Totals
  | [], totals => some totals
  | (taskId, session) :: rest, totals =>
    match accumulateSession tz totals taskId session.startedAt now offset with
    | some totals' => accumulateOpenSessions tz offset now rest totals'
    | none => none

/-- Embeds `LedgerSnapshot` (domain.rs). -/
structure LedgerSnapshot where
  activeTasks : ActiveMap
  dailyTaskTotals : Totals

/-- Embeds `Ledger::snapshot` (domain.rs): clone and stable-sort the events
by timestamp, replay them, then accumulate the still-open sessions through
`now`.  `none` models a panic reached inside `accumulate_session`. -/
def Ledger.snapshot (tz : Tz) (l : Ledger) (now : Int) : Option LedgerSnapshot :=
  match replayEvents tz l.dayStartOffset (sortEvents l.events) [] emptyTotals with
  | none => none
  | some (active, totals) =>
    match accumulateOpenSessions tz l.dayStartOffset now active totals with
    | none => none
    | some totals' => some { activeTasks := active, dailyTaskTotals := totals' }

/-- Embeds `Ledger::start_task` (domain.rs).  The pair carries the
`Result<(), String>` together with the ledger after the call (Rust mutates
through `&mut self`); `none` models a panic inside `snapshot`. -/
def Ledger.startTask (tz : Tz) (l : Ledger) (taskId : String) (timestamp : Int)
    (note : Option String) : Option (Except String Unit × Ledger) :=
  match l.task taskId with
  | none => some (Except.error ("task not found: " ++ taskId), l)
  | some task =>
    if task.archived then some (Except.error ("task is archived: " ++ taskId), l)
    else
      match l.snapshot tz timestamp with
      | none => none
      | some snap =>
        if containsActive snap.activeTasks taskId then
          some (Except.error ("task already running: " ++ taskId), l)
        else
          some (Except.ok (),
            { l with events := l.events ++ [TimeEvent.startEvent taskId timestamp note] })

/-- Embeds `Ledger::stop_task` (domain.rs).  Same conventions as
`Ledger.startTask`.  Note: the function validates only that the task exists
and that a snapshot taken at `timestamp` shows it active; it never compares
`timestamp` with the open interval's start. -/
def Ledger.stopTask (tz : Tz) (l : Ledger) (taskId : String) (timestamp : Int)
    (note : Option String) : Option (Except String Unit × Ledger) :=
  match l.task taskId with
  | none => some (Except.error ("task not found: " ++ taskId), l)
  | some _ =>
    match l.snapshot tz timestamp with
    | none => none
    | some snap =>
      if containsActive snap.activeTasks taskId then
        some (Except.ok (),
          { l with events := l.events ++ [TimeEvent.stopEvent taskId timestamp note] })
      else
        some (Except.error ("task is not running: " ++ taskId), l)

/-- Modelled from the spec: `Ledger::add_manual_session` is invoked from
`main.rs` (`ledger.add_manual_session(&task, start, stop, note)`), but its
definition is not among the provided sources.  Per the spec (section 4.2):
it fails `TaskNotFound` when the task id is unknown; fails `InvalidRange`
when `stop <= start`; otherwise it appends a Start then a Stop event
directly, bypassing the already-running check. -/
def Ledger.addManualSession (l : Ledger) (taskId : String) (start stop : Int)
    (note : Option String) : Except String Unit × Ledger :=
  match l.task taskId with
  | none => (Except.error ("task not found: " ++ taskId), l)
  | some _ =>
    if stop ≤ start then (Except.error ("invalid range: stop must be after start"), l)
    else
      (Except.ok (),
        { l with
            events := l.events ++
              [TimeEvent.startEvent taskId start note, TimeEvent.stopEvent taskId stop note] })

/-- Embeds `TaskEventKind` (ui.rs). -/
inductive TaskEventKind where
  | start
  | stop
deriving DecidableEq, Repr

/-- Embeds `TaskEventRef` (ui.rs): position in the event log, timestamp and
kind of one event belonging to a task. -/
structure TaskEventRef where
  index : Nat
  timestamp : Int
  kind : TaskEventKind
deriving DecidableEq, Repr

/-- Comparator of `sorted_task_events` (ui.rs): order by timestamp, ties
broken by log index. -/
def taskEventLE (a b : TaskEventRef) : Bool :=
  decide (a.timestamp < b.timestamp ∨ (a.timestamp = b.timestamp ∧ a.index ≤ b.index))

/-- Embeds `sorted_task_events` (ui.rs): the task's own events with their
log indices, sorted by `(timestamp, index)`. -/
def sortedTaskEvents (l : Ledger) (taskId : String) : List TaskEventRef :=
  (l.events.enum.filterMap (fun p =>
    match p.2.kind with
    | EventKind.start tid _ =>
      if tid == taskId then
        some { index := p.1, timestamp := p.2.timestamp, kind := TaskEventKind.start }
      else none
    | EventKind.stop tid _ =>
      if tid == taskId then
        some { index := p.1, timestamp := p.2.timestamp, kind := TaskEventKind.stop }
      else none)).mergeSort taskEventLE

/-- Embeds `previous_stop_for_task` (ui.rs): locate the Start event at
`start_event_index` within the task's sorted history, then scan backwards
for the nearest Stop. -/
def previousStopForTask (l : Ledger) (taskId : String) (startEventIndex : Nat) :
    Option Int :=
  let taskEvents := sortedTaskEvents l taskId
  match taskEvents.findIdx?
      (fun e => e.index == startEventIndex && e.kind == TaskEventKind.start) with
  | none => none
  | some pos =>
    ((taskEvents.take pos).reverse.find? (fun e => e.kind == TaskEventKind.stop)).map
      (fun e => e.timestamp)

/-- Embeds `next_start_for_task` (ui.rs): locate the Stop event at
`stop_event_index` within the task's sorted history, then scan forwards for
the nearest Start. -/
def nextStartForTask (l : Ledger) (taskId : String) (stopEventIndex : Nat) :
    Option Int :=
  let taskEvents := sortedTaskEvents l taskId
  match taskEvents.findIdx?
      (fun e => e.index == stopEventIndex && e.kind == TaskEventKind.stop) with
  | none => none
  | some pos =>
    ((taskEvents.drop (pos + 1)).find? (fun e => e.kind == TaskEventKind.start)).map
      (fun e => e.timestamp)

/-- Embeds the `DayField::Start` branch of `handle_day_digit_input` (ui.rs):
the guards on the new timestamp and the single in-place timestamp update.
`rowStop` is `row.stop` of the selected day row (the interval's stop bound),
`next` the freshly entered timestamp.  The UI bookkeeping around it (digit
buffer, status line, persistence) carries no ledger mutation and is not
modelled. -/
def retimeStart (l : Ledger) (taskId : String) (eventIndex : Nat) (rowStop next : Int) :
    Except String Unit × Ledger :=
  if rowStop ≤ next then (Except.error "start must be before end", l)
  else if (match previousStopForTask l taskId eventIndex with
           | some prevStop => decide (next < prevStop)
           | none => false) then
    (Except.error "start cannot be before previous stop for this task", l)
  else
      match l.events[eventIndex]? with
      | some e =>
        match e.kind with
        | EventKind.start _ _ =>
          (Except.ok (),
            { l with events := l.events.set eventIndex { e with timestamp := next } })
        | EventKind.stop _ _ => (Except.error "unable to edit start: event mismatch", l)
      | none => (Except.error "unable to edit start: event mismatch", l)

/-- Embeds the `DayField::End` branch of `handle_day_digit_input` (ui.rs):
`rowStart` is `row.start` of the selected day row, `now` the current time
(`Utc::now()`), `next` the freshly entered timestamp. -/
def retimeStop (l : Ledger) (taskId : String) (eventIndex : Nat)
    (rowStart now next : Int) : Except String Unit × Ledger :=
  if next ≤ rowStart then (Except.error "end must be after start", l)
  else if now < next then (Except.error "end cannot be later than current time", l)
  else if (match nextStartForTask l taskId eventIndex with
           | some nextStart => decide (nextStart < next)
           | none => false) then
    (Except.error "end cannot be after following start for this task", l)
  else
      match l.events[eventIndex]? with
      | some e =>
        match e.kind with
        | EventKind.stop _ _ =>
          (Except.ok (),
            { l with events := l.events.set eventIndex { e with timestamp := next } })
        | EventKind.start _ _ => (Except.error "unable to edit end: event mismatch", l)
      | none => (Except.error "unable to edit end: event mismatch", l)

/-- Tests whether an optional event is a Start event (the
`matches!(..., Some(EventKind::Start { .. }))` checks in ui.rs). -/
def optIsStartEvent : Option TimeEvent → Bool
  | some { kind := EventKind.start _ _, .. } => true
  | _ => false

/-- Tests whether an optional event is a Stop event. -/
def optIsStopEvent : Option TimeEvent → Bool
  | some { kind := EventKind.stop _ _, .. } => true
  | _ => false

/-- Embeds the removal step of `delete_interval` (ui.rs): collect the start
index plus the stop index when present and distinct, sort descending, and
remove each position in that order. -/
def removeIntervalEvents (events : List TimeEvent) (startEventIndex : Nat)
    (stopEventIndex : Option Nat) : List TimeEvent :=
  let indices := startEventIndex ::
    (match stopEventIndex with
     | some stopIdx => if stopIdx = startEventIndex then [] else [stopIdx]
     | none => [])
  (indices.mergeSort (fun a b => decide (b ≤ a))).foldl (fun es i => es.eraseIdx i) events

/-- Embeds `delete_interval` (ui.rs): bounds and kind guards, then the
atomic removal of the referenced Start (and Stop, when present).  The
`persist` call is excluded I/O. -/
def deleteInterval (l : Ledger) (startEventIndex : Nat) (stopEventIndex : Option Nat) :
    Except String Unit × Ledger :=
  if l.events.length ≤ startEventIndex then
    (Except.error "interval start event no longer exists", l)
  else if !(optIsStartEvent l.events[startEventIndex]?) then
    (Except.error "interval start event mismatch", l)
  else
    match stopEventIndex with
    | some stopIdx =>
      if l.events.length ≤ stopIdx then
        (Except.error "interval stop event no longer exists", l)
      else if !(optIsStopEvent l.events[stopIdx]?) then
        (Except.error "interval stop event mismatch", l)
      else
        (Except.ok (),
          { l with events := removeIntervalEvents l.events startEventIndex stopEventIndex })
    | none =>
      (Except.ok (),
        { l with events := removeIntervalEvents l.events startEventIndex stopEventIndex })

/-- A ledger header with one task `"t"` and day-start offset zero, used to
instantiate theorems at concrete inputs. -/
def sampleHeader : LedgerHeader :=
  { schemaVersion := 1, createdAt := 0, dayStartOffsetHours := 0, projects := [],
    tasks := [{ id := "t", projectId := "p", categoryId := none,
                description := "Task", archived := false }],
    categories := [] }

/-- A concrete ledger whose task `"t"` is running: its log holds a single
Start event at instant 100. -/
def runningLedger : Ledger :=
  { header := sampleHeader, events := [TimeEvent.startEvent "t" 100 none] }

/-- A concrete ledger like `runningLedger` whose Start event carries the
given note. -/
def noteLedger (note : Option String) : Ledger :=
  { header := sampleHeader, events := [TimeEvent.startEvent "t" 100 note] }

/-- A concrete ledger with a closed interval followed by an open one. -/
def threeEventLedger : Ledger :=
  { header := sampleHeader,
    events := [TimeEvent.startEvent "t" 100 none, TimeEvent.stopEvent "t" 200 none,
               TimeEvent.startEvent "t" 300 none] }

/-- A timezone whose local naive datetime 0 is ambiguous (maps to the two
UTC instants 7 and 3), used to instantiate the resolver theorems. -/
def ambTz : Tz :=
  { fromLocal := fun n => if n = 0 then LocalResult.ambiguous 7 3 else LocalResult.single n,
    toLocal := fun n => n }

/-- Sorting a one-event log is the identity. -/
theorem sortEvents_singleton (e : TimeEvent) : sortEvents [e] = [e] := by
  simp [sortEvents]

/-- The snapshot of a ledger holding a single Start event: the task is
reported active with the Start's timestamp (whatever its note), and the
totals are those of the session `[ts, now)`. -/
theorem snapshot_single_start (tz : Tz) (hdr : LedgerHeader) (tid : String)
    (ts now : Int) (note : Option String) :
    Ledger.snapshot tz { header := hdr, events := [TimeEvent.startEvent tid ts note] } now =
      match accumulateSession tz emptyTotals tid ts now
          (hdr.dayStartOffsetHours * nsPerHour) with
      | some totals =>
        some { activeTasks := [(tid, { startedAt := ts })], dailyTaskTotals := totals }
      | none => none := by
  simp only [Ledger.snapshot, Ledger.dayStartOffset, sortEvents_singleton,
    TimeEvent.startEvent, replayEvents, insertActive, accumulateOpenSessions]
  cases haccum : accumulateSession tz emptyTotals tid ts now
      (hdr.dayStartOffsetHours * nsPerHour) with
  | none => simp [haccum]
  | some totals => simp [haccum]

/-- C1.  The conservation claim fails on the code: with the host timezone at
UTC and day-start offset 0, the session
`[1970-01-02T00:00:00Z, 1970-01-02T00:00:00.5Z)` has `stop − start` equal to
half a second, yet `accumulate_session` adds nothing to any day: the last
day is computed from `stop − Duration::seconds(1)` (not one nanosecond),
which lies before `day(start)`, so the slicing loop body never runs and the
totals map is returned unchanged. -/
theorem accumulate_session_drops_subsecond_boundary_tail :
    accumulateSession utcTz emptyTotals "t" 86400000000000 86400500000000 0 =
      some emptyTotals ∧ (86400500000000 - 86400000000000 : Int) = 500000000 :=
  ⟨rfl, by norm_num⟩

/-- C2 (counterexample).  The claim says `stop_task(t, at, note)` with
`at ≤ s` fails and appends nothing; on the code it succeeds: in
`runningLedger` task `"t"` is active with open-interval start 100 (per the
snapshot evaluated at the call's timestamp 50), `50 ≤ 100`, and the call
returns `Ok` after appending a Stop event at 50. -/
theorem stop_task_accepts_past_timestamp :
    Ledger.stopTask utcTz runningLedger "t" 50 none =
      some (Except.ok (),
        { runningLedger with
            events := [TimeEvent.startEvent "t" 100 none, TimeEvent.stopEvent "t" 50 none] }) := by
  have htask : runningLedger.task "t" =
      some { id := "t", projectId := "p", categoryId := none,
             description := "Task", archived := false } := rfl
  have hsnap : Ledger.snapshot utcTz runningLedger 50 =
      some { activeTasks := [("t", { startedAt := 100 })], dailyTaskTotals := emptyTotals } :=
    (snapshot_single_start utcTz sampleHeader "t" 100 50 none).trans rfl
  simp [Ledger.stopTask, htask, hsnap, containsActive, lookupActive, TimeEvent.stopEvent]
  rfl

/-- C2 (amended).  `stop_task` performs no timestamp comparison: whenever
the task exists and the snapshot evaluated at the call's timestamp shows it
active, the call succeeds and appends exactly one Stop event — for every
timestamp, including `at ≤ s`.  The resulting non-positive interval then
contributes zero duration during reconstruction, because
`accumulate_session` returns the totals unchanged when `stop ≤ start`. -/
theorem stop_task_no_range_check (tz : Tz) (l : Ledger) (taskId : String)
    (timestamp : Int) (note : Option String) (snap : LedgerSnapshot)
    (htask : (l.task taskId).isSome = true)
    (hsnap : l.snapshot tz timestamp = some snap)
    (hactive : containsActive snap.activeTasks taskId = true) :
    Ledger.stopTask tz l taskId timestamp note =
      some (Except.ok (),
        { l with events := l.events ++ [TimeEvent.stopEvent taskId timestamp note] }) ∧
    ∀ (totals : Totals) (s e : Int), e ≤ s →
      accumulateSession tz totals taskId s e l.dayStartOffset = some totals := by
  constructor
  · cases htask' : l.task taskId with
    | none => rw [htask'] at htask; simp at htask
    | some task => simp [Ledger.stopTask, htask', hsnap, hactive]
  · intro totals s e he
    simp [accumulateSession, he]

/-- C2 (witness): the amended theorem at the concrete running ledger. -/
theorem stop_task_no_range_check_witness :
    Ledger.stopTask utcTz runningLedger "t" 70 none =
      some (Except.ok (),
        { runningLedger with
            events := runningLedger.events ++ [TimeEvent.stopEvent "t" 70 none] }) :=
  (stop_task_no_range_check utcTz runningLedger "t" 70 none
      { activeTasks := [("t", { startedAt := 100 })], dailyTaskTotals := emptyTotals }
      rfl
      ((snapshot_single_start utcTz sampleHeader "t" 100 70 none).trans rfl)
      rfl).1

/-- C3.  Modelled from the spec (see `Ledger.addManualSession`):
`addManualSession` fails with the task-not-found error when the task id is
unknown, fails with the invalid-range error when `stop ≤ start` leaving the
event log unchanged, and on success appends exactly a Start event followed
by a Stop event for the task, with no snapshot-based already-running
check. -/
theorem add_manual_session_validation (l : Ledger) (taskId : String)
    (start stop : Int) (note : Option String) :
    (l.task taskId = none →
      Ledger.addManualSession l taskId start stop note =
        (Except.error ("task not found: " ++ taskId), l)) ∧
    ((l.task taskId).isSome = true → stop ≤ start →
      Ledger.addManualSession l taskId start stop note =
        (Except.error "invalid range: stop must be after start", l)) ∧
    ((l.task taskId).isSome = true → start < stop →
      Ledger.addManualSession l taskId start stop note =
        (Except.ok (),
          { l with
              events := l.events ++
                [TimeEvent.startEvent taskId start note,
                 TimeEvent.stopEvent taskId stop note] })) := by
  refine ⟨?_, ?_, ?_⟩
  · intro hnone
    simp [Ledger.addManualSession, hnone]
  · intro hsome hrange
    cases htask' : l.task taskId with
    | none => rw [htask'] at hsome; simp at hsome
    | some task => simp [Ledger.addManualSession, htask', hrange]
  · intro hsome hrange
    cases htask' : l.task taskId with
    | none => rw [htask'] at hsome; simp at hsome
    | some task => simp [Ledger.addManualSession, htask', not_le.mpr hrange]

/-- C3 (witness): a manual session with `stop ≤ start` on the concrete
ledger fails with the invalid-range error and appends nothing. -/
theorem add_manual_session_validation_witness :
    Ledger.addManualSession runningLedger "t" 10 5 none =
      (Except.error "invalid range: stop must be after start", runningLedger) :=
  (add_manual_session_validation runningLedger "t" 10 5 none).2.1 rfl (by norm_num)

/-- C4.  Mutual exclusion with error atomicity: `start_task` fails whenever
the snapshot taken at the call instant shows the task active, `stop_task`
fails whenever that snapshot shows no open interval for it, and in every
failure case of either operation the returned ledger — in particular the
event log — is exactly the input ledger. -/
theorem start_stop_mutual_exclusion_and_frame (tz : Tz) (l : Ledger)
    (taskId : String) (timestamp : Int) (note : Option String) :
    (∀ snap, l.snapshot tz timestamp = some snap →
      containsActive snap.activeTasks taskId = true →
      ∃ e, Ledger.startTask tz l taskId timestamp note = some (Except.error e, l)) ∧
    (∀ snap, l.snapshot tz timestamp = some snap →
      containsActive snap.activeTasks taskId = false →
      ∃ e, Ledger.stopTask tz l taskId timestamp note = some (Except.error e, l)) ∧
    (∀ e out, Ledger.startTask tz l taskId timestamp note = some (Except.error e, out) →
      out = l) ∧
    (∀ e out, Ledger.stopTask tz l taskId timestamp note = some (Except.error e, out) →
      out = l) := by
  refine ⟨?_, ?_, ?_, ?_⟩
  · intro snap hsnap hact
    cases htask : l.task taskId with
    | none => exact ⟨"task not found: " ++ taskId, by simp [Ledger.startTask, htask]⟩
    | some task =>
      by_cases harch : task.archived = true
      · exact ⟨"task is archived: " ++ taskId, by simp [Ledger.startTask, htask, harch]⟩
      · exact ⟨"task already running: " ++ taskId,
          by simp [Ledger.startTask, htask, harch, hsnap, hact]⟩
  · intro snap hsnap hact
    cases htask : l.task taskId with
    | none => exact ⟨"task not found: " ++ taskId, by simp [Ledger.stopTask, htask]⟩
    | some task =>
      exact ⟨"task is not running: " ++ taskId,
        by simp [Ledger.stopTask, htask, hsnap, hact]⟩
  · intro e out h
    unfold Ledger.startTask at h
    split at h
    · simp only [Option.some.injEq, Prod.mk.injEq] at h
      exact h.2.symm
    · split at h
      · simp only [Option.some.injEq, Prod.mk.injEq] at h
        exact h.2.symm
      · split at h
        · exact absurd h (by simp)
        · split at h
          · simp only [Option.some.injEq, Prod.mk.injEq] at h
            exact h.2.symm
          · simp only [Option.some.injEq, Prod.mk.injEq] at h
            exact absurd h.1 (by simp)
  · intro e out h
    unfold Ledger.stopTask at h
    split at h
    · simp only [Option.some.injEq, Prod.mk.injEq] at h
      exact h.2.symm
    · split at h
      · exact absurd h (by simp)
      · split at h
        · simp only [Option.some.injEq, Prod.mk.injEq] at h
          exact absurd h.1 (by simp)
        · simp only [Option.some.injEq, Prod.mk.injEq] at h
          exact h.2.symm

/-- C5.  Replay order: the stable timestamp sort of `Ledger::snapshot`
(`events.sort_by_key(|event| event.timestamp)`, a stable sort) produces
exactly the order prescribed by the spec: sort the events paired with their
original insertion indices by `(timestamp, index)` lexicographically, then
forget the indices. -/
theorem replay_order_is_timestamp_index_lex (events : List TimeEvent) :
    sortEvents events = (events.enum.mergeSort tsIdxLE).map (fun p => p.2) := by
  have hle : tsIdxLE = List.enumLE tsLE := by
    funext a b
    simp only [tsIdxLE, List.enumLE, tsLE]
    by_cases h1 : a.2.timestamp ≤ b.2.timestamp <;>
      by_cases h2 : b.2.timestamp ≤ a.2.timestamp <;>
        simp [h1, h2, decide_eq_decide, decide_eq_true_eq]
    · have he : a.2.timestamp = b.2.timestamp := le_antisymm h1 h2
      simp [he]
    · omega
    · omega
    · omega
  rw [hle, List.mergeSort_enum]
  rfl

/-- The probing loop of `local_naive_to_utc_resolved` tries the cursors
`cursor, cursor + 1 min, …` and returns the first resolvable one among the
`n` probes, if any. -/
theorem probeForward_eq_findSome (tz : Tz) :
    ∀ (n : Nat) (cursor : Int),
      probeForward tz n cursor =
        (List.range n).findSome?
          (fun (k : Nat) => localNaiveToUtc tz (cursor + (k : Int) * nsPerMin))
  | 0, _ => rfl
  | n + 1, cursor => by
    rw [List.range_succ_eq_map, List.findSome?_cons]
    cases h : localNaiveToUtc tz cursor with
    | some u =>
      have h0 : localNaiveToUtc tz (cursor + (0 : Nat) * nsPerMin) = some u := by
        simpa using h
      simp [probeForward, h, h0]
    | none =>
      have h0 : localNaiveToUtc tz (cursor + (0 : Nat) * nsPerMin) = none := by
        simpa using h
      simp only [h0]
      show probeForward tz (n + 1) cursor = _
      rw [show probeForward tz (n + 1) cursor = probeForward tz n (cursor + nsPerMin) by
        simp [probeForward, h]]
      rw [probeForward_eq_findSome tz n (cursor + nsPerMin), List.findSome?_map]
      congr 1
      funext k
      show localNaiveToUtc tz (cursor + nsPerMin + k * nsPerMin) =
        localNaiveToUtc tz (cursor + ((k + 1 : Nat) : Int) * nsPerMin)
      congr 1
      push_cast
      ring

/-- C6.  Local-time resolution: an ambiguous local datetime resolves to the
earlier of its two UTC instants; in general the resolver returns the first
resolvable instant among the 121 probes `naive, naive + 1 min, …,
naive + 120 min` (the initial attempt plus 120 one-minute forward probes,
two hours); when every probe fails it returns `none`, the model of the
fatal `panic!`. -/
theorem local_time_resolution (tz : Tz) (naive : Int) :
    (∀ a b, tz.fromLocal naive = LocalResult.ambiguous a b →
      localNaiveToUtc tz naive = some (min a b) ∧
      localNaiveToUtcResolved tz naive = some (min a b)) ∧
    localNaiveToUtcResolved tz naive =
      (List.range 121).findSome?
        (fun (k : Nat) => localNaiveToUtc tz (naive + (k : Int) * nsPerMin)) ∧
    ((∀ k : Nat, k < 121 → localNaiveToUtc tz (naive + (k : Int) * nsPerMin) = none) →
      localNaiveToUtcResolved tz naive = none) := by
  have h2 : localNaiveToUtcResolved tz naive =
      (List.range 121).findSome?
        (fun (k : Nat) => localNaiveToUtc tz (naive + (k : Int) * nsPerMin)) := by
    rw [show (121 : Nat) = 120 + 1 from rfl, List.range_succ_eq_map, List.findSome?_cons]
    cases h : localNaiveToUtc tz naive with
    | some u =>
      have h0 : localNaiveToUtc tz (naive + (0 : Nat) * nsPerMin) = some u := by
        simpa using h
      simp [localNaiveToUtcResolved, h, h0]
    | none =>
      have h0 : localNaiveToUtc tz (naive + (0 : Nat) * nsPerMin) = none := by
        simpa using h
      simp only [h0]
      rw [show localNaiveToUtcResolved tz naive = probeForward tz 120 (naive + nsPerMin) by
        simp [localNaiveToUtcResolved, h]]
      rw [probeForward_eq_findSome tz 120 (naive + nsPerMin), List.findSome?_map]
      congr 1
      funext k
      show localNaiveToUtc tz (naive + nsPerMin + k * nsPerMin) =
        localNaiveToUtc tz (naive + ((k + 1 : Nat) : Int) * nsPerMin)
      congr 1
      push_cast
      ring
  refine ⟨?_, h2, ?_⟩
  · intro a b hab
    have h1 : localNaiveToUtc tz naive = some (min a b) := by
      simp [localNaiveToUtc, hab]
    exact ⟨h1, by simp [localNaiveToUtcResolved, h1]⟩
  · intro hall
    rw [h2]
    rw [List.findSome?_eq_none_iff]
    intro k hk
    exact hall k (List.mem_range.mp hk)

/-- C6 (witness): in `ambTz` the local datetime 0 maps to the two UTC
instants 7 and 3; the resolver picks the earlier one, 3. -/
theorem local_time_resolution_witness :
    localNaiveToUtc ambTz 0 = some 3 ∧ localNaiveToUtcResolved ambTz 0 = some 3 := by
  have h := (local_time_resolution ambTz 0).1 7 3 rfl
  simpa using h

/-- C10.  The snapshot replays the entire event log without filtering by
`now`: whenever two evaluation instants both produce a snapshot, the
active-task maps coincide, and a ledger whose single Start event lies at
`ts ≥ now` (in the future of `now`) still reports that task active while
accumulating no duration at all. -/
theorem snapshot_ignores_now_for_active (tz : Tz) :
    (∀ (l : Ledger) (n1 n2 : Int) (s1 s2 : LedgerSnapshot),
      l.snapshot tz n1 = some s1 → l.snapshot tz n2 = some s2 →
      s1.activeTasks = s2.activeTasks) ∧
    (∀ (hdr : LedgerHeader) (taskId : String) (ts now : Int) (note : Option String),
      now ≤ ts →
      Ledger.snapshot tz { header := hdr, events := [TimeEvent.startEvent taskId ts note] }
          now =
        some { activeTasks := [(taskId, { startedAt := ts })],
               dailyTaskTotals := emptyTotals }) := by
  constructor
  · intro l n1 n2 s1 s2 h1 h2
    unfold Ledger.snapshot at h1 h2
    cases hrep : replayEvents tz l.dayStartOffset (sortEvents l.events) [] emptyTotals with
    | none => rw [hrep] at h1; exact absurd h1 (by simp)
    | some p =>
      obtain ⟨active, totals⟩ := p
      rw [hrep] at h1 h2
      dsimp only at h1 h2
      cases hacc1 : accumulateOpenSessions tz l.dayStartOffset n1 active totals with
      | none => rw [hacc1] at h1; exact absurd h1 (by simp)
      | some t1 =>
        rw [hacc1] at h1
        cases hacc2 : accumulateOpenSessions tz l.dayStartOffset n2 active totals with
        | none => rw [hacc2] at h2; exact absurd h2 (by simp)
        | some t2 =>
          rw [hacc2] at h2
          simp only [Option.some.injEq] at h1 h2
          rw [← h1, ← h2]
  · intro hdr taskId ts now note h
    rw [snapshot_single_start]
    rw [show accumulateSession tz emptyTotals taskId ts now
        (hdr.dayStartOffsetHours * nsPerHour) = some emptyTotals by
      simp [accumulateSession, h]]

/-- C10 (witness): the concrete one-event ledger whose Start lies at 100,
snapshotted at the earlier instant 50, still reports the task active with
zero accumulated duration. -/
theorem snapshot_ignores_now_for_active_witness :
    Ledger.snapshot utcTz
        { header := sampleHeader, events := [TimeEvent.startEvent "t" 100 none] } 50 =
      some { activeTasks := [("t", { startedAt := 100 })],
             dailyTaskTotals := emptyTotals } :=
  (snapshot_ignores_now_for_active utcTz).2 sampleHeader "t" 100 50 none (by norm_num)

/-- C4 (witness): starting the already-running task of the concrete ledger
fails and leaves it untouched. -/
theorem start_stop_mutual_exclusion_and_frame_witness :
    ∃ e, Ledger.startTask utcTz runningLedger "t" 150 none =
      some (Except.error e, runningLedger) :=
  (start_stop_mutual_exclusion_and_frame utcTz runningLedger "t" 150 none).1
    { activeTasks := [("t", { startedAt := 100 })], dailyTaskTotals := emptyTotals }
    ((snapshot_single_start utcTz sampleHeader "t" 100 150 none).trans rfl)
    rfl

/-- C7.  Retiming guards: moving a Start to or past its paired Stop, or
before the previous Stop of the same task, is rejected; moving a Stop to or
before its paired Start, past `now`, or past the next Start of the same
task, is rejected; and every rejected retiming returns the ledger — hence
the event log — unchanged. -/
theorem retiming_guards (l : Ledger) (taskId : String) (eventIndex : Nat)
    (rowStop rowStart now next : Int) :
    (rowStop ≤ next →
      retimeStart l taskId eventIndex rowStop next =
        (Except.error "start must be before end", l)) ∧
    (∀ p, previousStopForTask l taskId eventIndex = some p → next < p →
      ∃ e, retimeStart l taskId eventIndex rowStop next = (Except.error e, l)) ∧
    (∀ e out, retimeStart l taskId eventIndex rowStop next = (Except.error e, out) →
      out = l) ∧
    (next ≤ rowStart →
      retimeStop l taskId eventIndex rowStart now next =
        (Except.error "end must be after start", l)) ∧
    (now < next →
      ∃ e, retimeStop l taskId eventIndex rowStart now next = (Except.error e, l)) ∧
    (∀ p, nextStartForTask l taskId eventIndex = some p → p < next →
      ∃ e, retimeStop l taskId eventIndex rowStart now next = (Except.error e, l)) ∧
    (∀ e out, retimeStop l taskId eventIndex rowStart now next = (Except.error e, out) →
      out = l) := by
  refine ⟨?_, ?_, ?_, ?_, ?_, ?_, ?_⟩
  · intro h
    simp [retimeStart, h]
  · intro p hp hlt
    by_cases hr : rowStop ≤ next
    · exact ⟨"start must be before end", by simp [retimeStart, hr]⟩
    · exact ⟨"start cannot be before previous stop for this task",
        by simp [retimeStart, hr, hp, hlt]⟩
  · intro e out h
    unfold retimeStart at h
    split at h
    · simp only [Prod.mk.injEq] at h
      exact h.2.symm
    · split at h
      · simp only [Prod.mk.injEq] at h
        exact h.2.symm
      · split at h
        · split at h
          · exact absurd (congrArg Prod.fst h) (by simp)
          · simp only [Prod.mk.injEq] at h
            exact h.2.symm
        · simp only [Prod.mk.injEq] at h
          exact h.2.symm
  · intro h
    simp [retimeStop, h]
  · intro h
    by_cases hr : next ≤ rowStart
    · exact ⟨"end must be after start", by simp [retimeStop, hr]⟩
    · exact ⟨"end cannot be later than current time", by simp [retimeStop, hr, h]⟩
  · intro p hp hlt
    by_cases hr : next ≤ rowStart
    · exact ⟨"end must be after start", by simp [retimeStop, hr]⟩
    · by_cases hn : now < next
      · exact ⟨"end cannot be later than current time", by simp [retimeStop, hr, hn]⟩
      · exact ⟨"end cannot be after following start for this task",
          by simp [retimeStop, hr, hn, hp, hlt]⟩
  · intro e out h
    unfold retimeStop at h
    split at h
    · simp only [Prod.mk.injEq] at h
      exact h.2.symm
    · split at h
      · simp only [Prod.mk.injEq] at h
        exact h.2.symm
      · split at h
        · simp only [Prod.mk.injEq] at h
          exact h.2.symm
        · split at h
          · split at h
            · exact absurd (congrArg Prod.fst h) (by simp)
            · simp only [Prod.mk.injEq] at h
              exact h.2.symm
          · simp only [Prod.mk.injEq] at h
            exact h.2.symm

/-- C7 (witness): retiming the Start of the concrete ledger to 300 with its
paired Stop bound at 200 is rejected and leaves the ledger unchanged. -/
theorem retiming_guards_witness :
    retimeStart runningLedger "t" 0 200 300 =
      (Except.error "start must be before end", runningLedger) :=
  (retiming_guards runningLedger "t" 0 200 0 0 300).1 (by norm_num)

/-- Membership in an insert-or-overwrite update of the active map comes
from the map or is the new binding. -/
theorem mem_insertActive {m : ActiveMap} {key k : String} {v s : ActiveSession}
    (h : (k, s) ∈ insertActive m key v) : (k, s) ∈ m ∨ (k = key ∧ s = v) := by
  induction m with
  | nil =>
    simp only [insertActive, List.mem_singleton, Prod.mk.injEq] at h
    exact Or.inr h
  | cons p rest ih =>
    obtain ⟨k', v'⟩ := p
    simp only [insertActive] at h
    by_cases hk : k' = key
    · rw [if_pos hk] at h
      rcases List.mem_cons.mp h with h1 | h2
      · simp only [Prod.mk.injEq] at h1
        exact Or.inr h1
      · exact Or.inl (List.mem_cons_of_mem _ h2)
    · rw [if_neg hk] at h
      rcases List.mem_cons.mp h with h1 | h2
      · exact Or.inl (List.mem_cons.mpr (Or.inl h1))
      · rcases ih h2 with hm | he
        · exact Or.inl (List.mem_cons_of_mem _ hm)
        · exact Or.inr he

/-- Membership survives removal from the active map. -/
theorem mem_removeActive {m : ActiveMap} {key k : String} {s : ActiveSession}
    (h : (k, s) ∈ removeActive m key) : (k, s) ∈ m :=
  (List.mem_filter.mp h).1

/-- Every binding of the active map produced by the replay loop either was
present initially or records the timestamp of a Start event of the replayed
list. -/
theorem replayEvents_active_source (tz : Tz) (offset : Int) :
    ∀ (evs : List TimeEvent) (active : ActiveMap) (totals : Totals)
      (out : ActiveMap × Totals),
      replayEvents tz offset evs active totals = some out →
      ∀ k s, (k, s) ∈ out.1 →
        (k, s) ∈ active ∨ ∃ note, TimeEvent.startEvent k s.startedAt note ∈ evs
  | [], active, totals, out, h, k, s, hm => by
    simp only [replayEvents, Option.some.injEq] at h
    rw [← h] at hm
    exact Or.inl hm
  | e :: rest, active, totals, out, h, k, s, hm => by
    obtain ⟨ts0, kind0⟩ := e
    cases kind0 with
    | start tid note0 =>
      simp only [replayEvents] at h
      rcases replayEvents_active_source tz offset rest _ _ _ h k s hm with hmem | ⟨n1, hn1⟩
      · rcases mem_insertActive hmem with h2 | ⟨hkk, hss⟩
        · exact Or.inl h2
        · refine Or.inr ⟨note0, ?_⟩
          rw [hkk, hss]
          exact List.mem_cons_self _ _
      · exact Or.inr ⟨n1, List.mem_cons_of_mem _ hn1⟩
    | stop tid note0 =>
      simp only [replayEvents] at h
      cases hl : lookupActive active tid with
      | some session =>
        rw [hl] at h
        dsimp only at h
        cases hacc : accumulateSession tz totals tid session.startedAt ts0 offset with
        | none => rw [hacc] at h; exact absurd h (by simp)
        | some totals' =>
          rw [hacc] at h
          rcases replayEvents_active_source tz offset rest _ _ _ h k s hm with hmem | ⟨n1, hn1⟩
          · exact Or.inl (mem_removeActive hmem)
          · exact Or.inr ⟨n1, List.mem_cons_of_mem _ hn1⟩
      | none =>
        rw [hl] at h
        dsimp only at h
        rcases replayEvents_active_source tz offset rest _ _ _ h k s hm with hmem | ⟨n1, hn1⟩
        · exact Or.inl hmem
        · exact Or.inr ⟨n1, List.mem_cons_of_mem _ hn1⟩

/-- C9 (counterexample).  Two ledgers whose only difference is the note of
the Start event produce literally identical snapshots, and the
active-session entry is `{ startedAt := 100 }` with no note component: the
snapshot's active-session map cannot carry the Start note. -/
theorem active_session_note_not_carried :
    (noteLedger (some "alpha")).events ≠ (noteLedger (some "beta")).events ∧
    Ledger.snapshot utcTz (noteLedger (some "alpha")) 200 =
      some { activeTasks := [("t", { startedAt := 100 })],
             dailyTaskTotals := emptyTotals } ∧
    Ledger.snapshot utcTz (noteLedger (some "beta")) 200 =
      some { activeTasks := [("t", { startedAt := 100 })],
             dailyTaskTotals := emptyTotals } := by
  refine ⟨by decide, ?_, ?_⟩
  · exact (snapshot_single_start utcTz sampleHeader "t" 100 200 (some "alpha")).trans rfl
  · exact (snapshot_single_start utcTz sampleHeader "t" 100 200 (some "beta")).trans rfl

/-- C9 (amended).  Each entry of the snapshot's active-session map carries
only the `started_at` timestamp — `ActiveSession` has no note field — and
that timestamp is the timestamp of a Start event for the task present in
the event log. -/
theorem active_entry_has_start_timestamp (tz : Tz) (l : Ledger) (now : Int)
    (snap : LedgerSnapshot) (h : l.snapshot tz now = some snap) :
    ∀ taskId s, (taskId, s) ∈ snap.activeTasks →
      ∃ note, TimeEvent.startEvent taskId s.startedAt note ∈ l.events := by
  intro taskId s hm
  unfold Ledger.snapshot at h
  cases hrep : replayEvents tz l.dayStartOffset (sortEvents l.events) [] emptyTotals with
  | none => rw [hrep] at h; exact absurd h (by simp)
  | some p =>
    obtain ⟨active, totals⟩ := p
    rw [hrep] at h
    dsimp only at h
    cases hacc : accumulateOpenSessions tz l.dayStartOffset now active totals with
    | none => rw [hacc] at h; exact absurd h (by simp)
    | some t' =>
      rw [hacc] at h
      simp only [Option.some.injEq] at h
      rw [← h] at hm
      rcases replayEvents_active_source tz l.dayStartOffset _ _ _ _ hrep taskId s hm with
        hmem | ⟨note, hnote⟩
      · exact absurd hmem (by simp)
      · refine ⟨note, ?_⟩
        simp only [sortEvents] at hnote
        exact List.mem_mergeSort.mp hnote

/-- C9 (witness): the amended theorem at the concrete noted ledger. -/
theorem active_entry_has_start_timestamp_witness :
    ∃ note, TimeEvent.startEvent "t" (100 : Int) note ∈ (noteLedger (some "alpha")).events :=
  active_entry_has_start_timestamp utcTz (noteLedger (some "alpha")) 200
    { activeTasks := [("t", { startedAt := 100 })], dailyTaskTotals := emptyTotals }
    ((snapshot_single_start utcTz sampleHeader "t" 100 200 (some "alpha")).trans rfl)
    "t" { startedAt := 100 } (by simp)

/-- Sorting a two-element list reduces to one comparison. -/
theorem mergeSort_pair {α : Type} (le : α → α → Bool) (a b : α) :
    List.mergeSort [a, b] le = if le a b then [a, b] else [b, a] := by
  simp [List.mergeSort, List.splitInTwo, List.splitAt, List.splitAt.go, List.merge]

/-- Filtering an enumeration by an index below its starting index keeps
every entry. -/
theorem filter_ne_enumFrom {α : Type} :
    ∀ (es : List α) (m k : Nat), k < m →
      (es.enumFrom m).filter (fun p => decide (p.1 ≠ k)) = es.enumFrom m
  | [], _, _, _ => rfl
  | a :: es, m, k, h => by
    simp only [List.enumFrom_cons, List.filter_cons]
    have h1 : (decide (m ≠ k)) = true := by
      simp only [ne_eq, decide_eq_true_eq]
      omega
    rw [h1, if_pos rfl]
    rw [filter_ne_enumFrom es (m + 1) k (by omega)]

/-- Erasing the entry at position `i` keeps exactly the entries of the
enumeration whose index differs from `i`, in their original order. -/
theorem eraseIdx_eq_enumFrom_filter {α : Type} :
    ∀ (es : List α) (n i : Nat),
      es.eraseIdx i =
        ((es.enumFrom n).filter (fun p => decide (p.1 ≠ n + i))).map Prod.snd
  | [], _, _ => rfl
  | a :: es, n, 0 => by
    simp only [Nat.add_zero, List.eraseIdx_cons_zero, List.enumFrom_cons, List.filter_cons]
    have h1 : (decide (n ≠ n)) = false := by simp
    rw [h1, if_neg Bool.false_ne_true]
    rw [filter_ne_enumFrom es (n + 1) n (Nat.lt_succ_self n)]
    exact (List.enumFrom_map_snd (n + 1) es).symm
  | a :: es, n, i + 1 => by
    simp only [List.eraseIdx_cons_succ, List.enumFrom_cons, List.filter_cons]
    have h1 : (decide (n ≠ n + (i + 1))) = true := by
      simp only [ne_eq, decide_eq_true_eq]
      omega
    rw [h1, if_pos rfl]
    simp only [List.map_cons]
    congr 1
    rw [show n + (i + 1) = (n + 1) + i from by omega]
    exact eraseIdx_eq_enumFrom_filter es (n + 1) i

/-- Erasing positions `j` then `i` (with `i < j`, higher index removed
first) keeps exactly the entries of the enumeration whose index differs
from both, in their original order. -/
theorem eraseIdx_pair_eq_enumFrom_filter {α : Type} :
    ∀ (es : List α) (n i j : Nat), i < j →
      (es.eraseIdx j).eraseIdx i =
        ((es.enumFrom n).filter
          (fun p => decide (p.1 ≠ n + i) && decide (p.1 ≠ n + j))).map Prod.snd
  | [], _, _, _, _ => rfl
  | a :: es, n, 0, j, hij => by
    obtain ⟨j', rfl⟩ : ∃ j', j = j' + 1 := ⟨j - 1, by omega⟩
    simp only [List.eraseIdx_cons_succ, List.eraseIdx_cons_zero, List.enumFrom_cons,
      List.filter_cons, Nat.add_zero]
    have h1 : (decide (n ≠ n) && decide (n ≠ n + (j' + 1))) = false := by simp
    rw [h1, if_neg Bool.false_ne_true]
    have hcong : ∀ x ∈ es.enumFrom (n + 1),
        (decide (x.1 ≠ n) && decide (x.1 ≠ n + (j' + 1))) =
          decide (x.1 ≠ (n + 1) + j') := by
      intro x hx
      obtain ⟨xi, xa⟩ := x
      have hge := (List.mem_enumFrom hx).1
      have hne : (decide (xi ≠ n)) = true := by
        simp only [ne_eq, decide_eq_true_eq]
        omega
      rw [hne, Bool.true_and]
      rw [show n + (j' + 1) = (n + 1) + j' from by omega]
    rw [List.filter_congr hcong]
    exact eraseIdx_eq_enumFrom_filter es (n + 1) j'
  | a :: es, n, i + 1, j, hij => by
    obtain ⟨j', rfl⟩ : ∃ j', j = j' + 1 := ⟨j - 1, by omega⟩
    have hij' : i < j' := by omega
    simp only [List.eraseIdx_cons_succ, List.enumFrom_cons, List.filter_cons]
    have h1 : (decide (n ≠ n + (i + 1)) && decide (n ≠ n + (j' + 1))) = true := by
      simp only [ne_eq, decide_eq_true_eq, Bool.and_eq_true]
      omega
    rw [h1, if_pos rfl]
    simp only [List.map_cons]
    congr 1
    rw [show n + (i + 1) = (n + 1) + i from by omega,
      show n + (j' + 1) = (n + 1) + j' from by omega]
    exact eraseIdx_pair_eq_enumFrom_filter es (n + 1) i j' hij'

/-- An optional event cannot be a Start and a Stop at the same time. -/
theorem not_start_and_stop (o : Option TimeEvent) :
    optIsStartEvent o = true → optIsStopEvent o = true → False := by
  intro h1 h2
  match o with
  | none => simp [optIsStartEvent] at h1
  | some { timestamp := ts, kind := EventKind.start tid note } =>
    simp [optIsStopEvent] at h2
  | some { timestamp := ts, kind := EventKind.stop tid note } =>
    simp [optIsStartEvent] at h1

/-- C8.  Interval deletion frame: when the referenced indices hold a Start
event and (when present) a Stop event, `delete_interval` succeeds and the
resulting log holds exactly the events at every other position, in their
original order; deleting a still-open interval (no stop index) removes only
the Start event. -/
theorem delete_interval_exact (l : Ledger) (i : Nat) :
    (∀ j, optIsStartEvent l.events[i]? = true → optIsStopEvent l.events[j]? = true →
      deleteInterval l i (some j) =
        (Except.ok (),
          { l with events := (l.events.enum.filter
              (fun p => decide (p.1 ≠ i) && decide (p.1 ≠ j))).map Prod.snd })) ∧
    (optIsStartEvent l.events[i]? = true →
      deleteInterval l i none =
        (Except.ok (),
          { l with events := (l.events.enum.filter
              (fun p => decide (p.1 ≠ i))).map Prod.snd })) := by
  constructor
  · intro j hstart hstop
    have hi_lt : i < l.events.length := by
      cases hgi : l.events[i]? with
      | none => rw [hgi] at hstart; simp [optIsStartEvent] at hstart
      | some e => exact (List.getElem?_eq_some_iff.mp hgi).1
    have hj_lt : j < l.events.length := by
      cases hgj : l.events[j]? with
      | none => rw [hgj] at hstop; simp [optIsStopEvent] at hstop
      | some e => exact (List.getElem?_eq_some_iff.mp hgj).1
    have hij_ne : i ≠ j := by
      intro hEq
      exact not_start_and_stop _ (hEq ▸ hstart) hstop
    unfold deleteInterval
    rw [if_neg (by omega : ¬ l.events.length ≤ i)]
    rw [if_neg (by simp [hstart])]
    dsimp only
    rw [if_neg (by omega : ¬ l.events.length ≤ j)]
    rw [if_neg (by simp [hstop])]
    unfold removeIntervalEvents
    dsimp only
    rw [if_neg (fun hEq => hij_ne hEq.symm)]
    rw [mergeSort_pair]
    by_cases hlt : i < j
    · have hd : (decide (j ≤ i)) = false := by
        simp only [decide_eq_false_iff_not]
        omega
      rw [hd, if_neg (by simp)]
      simp only [List.foldl_cons, List.foldl_nil]
      have hmain := eraseIdx_pair_eq_enumFrom_filter l.events 0 i j hlt
      simp only [Nat.zero_add] at hmain
      rw [show l.events.enum = l.events.enumFrom 0 from rfl]
      rw [hmain]
    · have hgt : j < i := by omega
      have hd : (decide (j ≤ i)) = true := by
        simp only [decide_eq_true_eq]
        omega
      rw [hd, if_pos rfl]
      simp only [List.foldl_cons, List.foldl_nil]
      have hmain := eraseIdx_pair_eq_enumFrom_filter l.events 0 j i hgt
      simp only [Nat.zero_add] at hmain
      have hcomm : ∀ x ∈ l.events.enumFrom 0,
          (decide (x.1 ≠ j) && decide (x.1 ≠ i)) =
            (decide (x.1 ≠ i) && decide (x.1 ≠ j)) := by
        intro x _
        exact Bool.and_comm _ _
      rw [show l.events.enum = l.events.enumFrom 0 from rfl]
      rw [hmain, List.filter_congr hcomm]
  · intro hstart
    have hi_lt : i < l.events.length := by
      cases hgi : l.events[i]? with
      | none => rw [hgi] at hstart; simp [optIsStartEvent] at hstart
      | some e => exact (List.getElem?_eq_some_iff.mp hgi).1
    unfold deleteInterval
    rw [if_neg (by omega : ¬ l.events.length ≤ i)]
    rw [if_neg (by simp [hstart])]
    unfold removeIntervalEvents
    simp only [List.mergeSort_singleton, List.foldl_cons, List.foldl_nil]
    have hmain := eraseIdx_eq_enumFrom_filter l.events 0 i
    simp only [Nat.zero_add] at hmain
    rw [show l.events.enum = l.events.enumFrom 0 from rfl]
    rw [hmain]

/-- C8 (witness): deleting the closed interval of the concrete three-event
ledger removes exactly its Start (index 0) and Stop (index 1), leaving only
the later Start event. -/
theorem delete_interval_exact_witness :
    deleteInterval threeEventLedger 0 (some 1) =
      (Except.ok (),
        { threeEventLedger with events := [TimeEvent.startEvent "t" 300 none] }) := by
  have h := (delete_interval_exact threeEventLedger 0).1 1 rfl rfl
  rw [h]
  rfl

end Chronos
